import Mathlib

/-!
Verification of the Metronome repository's core against its specification.

The development shallowly embeds the Python source:

* Python strings are modelled as `List Char` (or `String` for path
  components); Python byte strings as `List Nat`.
* `src/libs/fileutils.py` : `is_safe_filename` and its helpers
  (`str.strip`, character membership).
* `src/libs/deps.py` : `safe_extract_path`, `extract` (tar and zip
  branches) and `download`.  Paths are modelled as lists of components
  (POSIX separator); `Path.resolve()` is modelled as lexical
  normalisation of `..` segments (no symbolic links); the SHA-256
  function is an abstract parameter; the HTTP response is a value
  holding status, declared content length and the streamed blocks.
* `src/libs/convert.py` : the progress-line loop of `ffmpeg` (split on
  "=", status dict, tqdm counter updates) and the function's control
  flow (no exception handler, return value `queue.get()`).  Python
  `float` arithmetic on the integral `out_time_us` values is modelled
  exactly on integers with round-half-to-even, which agrees with the
  CPython result for every microsecond count below 2^52.
* `src/metronome.py` lines 597-647 : the dispatch loop with
  `Queue(threads)` used as a counting semaphore, modelled as a step
  relation on worker-phase counters.
-/

deriving instance DecidableEq for Except

namespace Metronome

/-! ## Python string helpers -/

/-- Python `s.split(sep)` for a one-character separator: splits at every
occurrence, never drops empty parts, and yields `[s]` when the separator
does not occur (in particular `[[]]` for the empty string). -/
def splitChar (sep : Char) : List Char → List (List Char)
  | [] => [[]]
  | c :: cs =>
    match splitChar sep cs with
    | [] => [[]]
    | p :: ps => if c = sep then [] :: p :: ps else (c :: p) :: ps

/-- Python `s.strip(chars)`: removes leading and trailing characters that
are members of `cs`. -/
def pyStrip (cs : List Char) (s : List Char) : List Char :=
  ((s.dropWhile (cs.contains ·)).reverse.dropWhile (cs.contains ·)).reverse

/-- Python `s.startswith(pre)`. -/
def pyStartswith (s pre : List Char) : Bool :=
  pre.isPrefixOf s

/-! ## fileutils.py : is_safe_filename -/

/-- The forbidden character set of `is_safe_filename`
(`'<>:"/\\|?*\0'` in the source). -/
def forbiddenChars : List Char :=
  ['<', '>', ':', '"', '/', '\\', '|', '?', '*', Char.ofNat 0]

/-- The set stripped by `filename.strip(" .")`. -/
def stripSet : List Char := [' ', '.']

/-- Embedding of `fileutils.is_safe_filename`: rejects filenames holding a
forbidden character, a character with code point below 32, a leading or
trailing space or dot, or nothing at all. -/
def is_safe_filename (f : List Char) : Bool :=
  if forbiddenChars.any (fun c => f.contains c) then false
  else if f.any (fun c => c.toNat < 32) then false
  else if pyStrip stripSet f ≠ f then false
  else if f = [] then false
  else true

/-- An ASCII control character: the C0 range 0x00-0x1F together with
DEL (0x7F).  This is the claim's notion of a control character; the
source tests only `ord(char) < 32`, so DEL is the point where the two
part ways. -/
def asciiControl (c : Char) : Bool :=
  c.toNat < 32 || c.toNat == 127

/-- The amended claim's reject condition, matching what the source
actually tests: a forbidden character, a character with code point below
32 (the C0 controls only — DEL, 0x7F, although an ASCII control
character, is accepted), a leading or trailing space or dot, or the
empty string. -/
def badFilenameSpec (f : List Char) : Prop :=
  (∃ c ∈ f, c ∈ forbiddenChars) ∨
  (∃ c ∈ f, c.toNat < 32) ∨
  (f.head? = some ' ' ∨ f.head? = some '.' ∨
    f.getLast? = some ' ' ∨ f.getLast? = some '.') ∨
  f = []

instance (f : List Char) : Decidable (badFilenameSpec f) := by
  unfold badFilenameSpec
  infer_instance

/-! ## deps.py : paths, safe_extract_path and extract

An archive member's path is kept as `pathlib` parses it: a flag for a
leading separator and the list of components, with `.` components
dropped (so a component is never `.` and never empty, though the model
tolerates arbitrary strings).  `Path.resolve()` is lexical `..`
normalisation; `str(path)` for an absolute path renders with `/`. -/

/-- A path inside an archive as `pathlib.Path` parses it. -/
structure EntryPath where
  absolute : Bool
  parts : List String
deriving DecidableEq

/-- Python `Path.name`: the final component, or the empty string when
there is none. -/
def pathName (p : EntryPath) : String :=
  (p.parts.getLast?).getD ""

/-- Python `str.rfind(c)` restricted to a found index: the index of the
last occurrence of `c`, if any. -/
def pyRfind (c : Char) (l : List Char) : Option Nat :=
  match l.reverse.findIdx? (fun x => x == c) with
  | none => none
  | some j => some (l.length - 1 - j)

/-- Python `Path.stem`: the final component without its last suffix
(the text before the last dot when that dot is neither first nor
last). -/
def pathStemChars (p : EntryPath) : List Char :=
  let nm := (pathName p).data
  match pyRfind '.' nm with
  | some i => if 0 < i ∧ i < nm.length - 1 then nm.take i else nm
  | none => nm

/-- Python `Path.suffix`: the last suffix of the final component,
including its dot, or nothing. -/
def pathSuffixChars (p : EntryPath) : List Char :=
  let nm := (pathName p).data
  match pyRfind '.' nm with
  | some i => if 0 < i ∧ i < nm.length - 1 then nm.drop i else []
  | none => []

/-- Python `"".join(Path.suffixes)`: every suffix of the final component
joined, each with its dot (`a.tar.gz` gives `.tar.gz`, `ffmpeg` gives
the empty string). -/
def pathSuffixesJoined (p : EntryPath) : List Char :=
  let nm := (pathName p).data
  if nm.getLast? = some '.' then []
  else
    let stripped := nm.dropWhile (fun c => c == '.')
    ((splitChar '.' stripped).tail).foldl (fun acc s => acc ++ '.' :: s) []

/-- Lexical `Path.resolve()` on the components of an absolute path: a
`..` pops the previous component (staying at the root when there is
none), a `.` or empty component disappears. -/
def resolveParts (l : List String) : List String :=
  l.foldl
    (fun acc c =>
      if c = ".." then acc.dropLast
      else if c = "." then acc
      else if c = "" then acc
      else acc ++ [c])
    []

/-- Python `str(path)` of an absolute path with POSIX separators. -/
def renderAbs (l : List String) : List Char :=
  if l = [] then ['/']
  else l.foldl (fun acc c => acc ++ '/' :: c.data) []

/-- Embedding of the inner `safe_extract_path` of `deps.extract`: join
the destination with the member's final name component only, resolve,
and require the result to start with the resolved destination plus a
separator; otherwise raise `ValueError` (modelled as the error case). -/
def safe_extract_path (base : List String) (p : EntryPath) : Except (List Char) (List String) :=
  if pyStartswith
      (renderAbs (resolveParts (base ++ (if pathName p = "" then [] else [pathName p]))))
      (renderAbs (resolveParts base) ++ ['/']) then
    Except.ok (resolveParts (base ++ (if pathName p = "" then [] else [pathName p])))
  else
    Except.error ['b', 'l', 'o', 'c', 'k', 'e', 'd']

/-- A member of a tar archive: `tar.extractfile` yields `none` for a
non-regular member (the code then still creates the output file before
skipping). -/
structure TarEntry where
  path : EntryPath
  content : Option (List Nat)
deriving DecidableEq

/-- A member of a zip archive. -/
structure ZipEntry where
  path : EntryPath
  content : List Nat
deriving DecidableEq

/-- One file created on disk by `extract`: its absolute path components
and the bytes written. -/
structure FileWrite where
  path : List String
  data : List Nat
deriving DecidableEq

/-- How a run of `extract` ends: a normal return value, or a raised
exception. -/
inductive ExtractOutcome
  | completed (b : Bool)
  | raised (msg : List Char)
deriving DecidableEq

/-- A run of `extract`: every file written, in order, and the outcome. -/
structure ExtractRun where
  writes : List FileWrite
  outcome : ExtractOutcome
deriving DecidableEq

/-- The sniffed container format (`magic.from_buffer`) together with the
parsed members: the tar branch is taken for xz/gzip bytes, the zip
branch for zip bytes, and anything else returns `False`. -/
inductive ArchiveData
  | tarball (entries : List TarEntry)
  | zipfile (entries : List ZipEntry)
  | unknown
deriving DecidableEq

/-- Whether a needle equal to the member's stem is wanted
(`file_path.stem in needles`). -/
def stemWanted (needles : List String) (p : EntryPath) : Bool :=
  needles.any (fun nd => nd.data == pathStemChars p)

/-- The tar branch's suffix test: the joined suffixes must be the empty
string or the dot-less literal `"exe"` (as written in the source). -/
def tarSuffixOk (p : EntryPath) : Bool :=
  (pathSuffixesJoined p == []) || (pathSuffixesJoined p == ['e', 'x', 'e'])

/-- The zip branch's suffix test: the last suffix must be empty or
`".exe"`. -/
def zipSuffixOk (p : EntryPath) : Bool :=
  (pathSuffixChars p == []) || (pathSuffixChars p == ['.', 'e', 'x', 'e'])

/-- The tar branch of `deps.extract`: for each member, skip unless the
joined suffixes pass and the stem is wanted; compute the guarded output
path (aborting everything on a guard failure), create the file, and
write the member's bytes (nothing for a non-regular member). -/
def tarExtract (base : List String) (needles : List String) :
    List TarEntry → List FileWrite → ExtractRun
  | [], ws => ⟨ws, ExtractOutcome.completed true⟩
  | e :: rest, ws =>
    if !tarSuffixOk e.path then tarExtract base needles rest ws
    else if stemWanted needles e.path then
      match safe_extract_path base e.path with
      | Except.error m => ⟨ws, ExtractOutcome.raised m⟩
      | Except.ok tgt =>
        match e.content with
        | none => tarExtract base needles rest (ws ++ [⟨tgt, []⟩])
        | some bs => tarExtract base needles rest (ws ++ [⟨tgt, bs⟩])
    else tarExtract base needles rest ws

/-- The zip branch of `deps.extract`: for each member whose stem is
wanted and whose suffix passes, compute the guarded output path
(aborting everything on a guard failure) and write the member's
bytes. -/
def zipExtract (base : List String) (needles : List String) :
    List ZipEntry → List FileWrite → ExtractRun
  | [], ws => ⟨ws, ExtractOutcome.completed true⟩
  | e :: rest, ws =>
    if stemWanted needles e.path && zipSuffixOk e.path then
      match safe_extract_path base e.path with
      | Except.error m => ⟨ws, ExtractOutcome.raised m⟩
      | Except.ok tgt => zipExtract base needles rest (ws ++ [⟨tgt, e.content⟩])
    else zipExtract base needles rest ws

/-- Embedding of `deps.extract`: dispatch on the sniffed format, walk
the members, and return `False` for an unrecognised container. -/
def extract (d : ArchiveData) (base : List String) (needles : List String) : ExtractRun :=
  match d with
  | ArchiveData.tarball es => tarExtract base needles es []
  | ArchiveData.zipfile es => zipExtract base needles es []
  | ArchiveData.unknown => ⟨[], ExtractOutcome.completed false⟩

/-- A write landing strictly inside the destination: its rendered path
extends the rendered destination plus a separator, and it is the
destination plus exactly one honest final component. -/
def writeInside (base : List String) (w : FileWrite) : Prop :=
  pyStartswith (renderAbs w.path) (renderAbs base ++ ['/']) = true ∧
  ∃ n, n ≠ "" ∧ n ≠ ".." ∧ w.path = base ++ [n]

/-- A destination directory given as honest absolute components: none is
empty, a dot or a dot-dot (the code always passes `cwd/bin`). -/
def cleanParts (l : List String) : Prop :=
  ∀ c ∈ l, c ≠ "" ∧ c ≠ "." ∧ c ≠ ".."

instance (l : List String) : Decidable (cleanParts l) := by
  unfold cleanParts
  infer_instance

/-! ## deps.py : download

The network and the hash are abstracted: an `HttpResponse` is what a
finished `requests.get` exposes (success flag of `raise_for_status`, the
declared `Content-Length` with 0 for a missing header, and the streamed
blocks); `sha256hex` is an arbitrary function standing for
`hashlib.sha256(...).hexdigest()`. -/

/-- A finished HTTP transfer as the code observes it. -/
structure HttpResponse where
  ok : Bool
  contentLength : Nat
  blocks : List (List Nat)
deriving DecidableEq

/-- The errors `download` raises (all `RuntimeError` in the source; the
checksum one names the URL, the expected value and the computed
value exactly as the message formats them). -/
inductive DownloadError
  | transport (url : String)
  | sizeMismatch (url : String)
  | checksumMismatch (url : String) (expected : Option String) (found : String)
deriving DecidableEq

/-- The bytes a response delivers, in order. -/
def respBytes (r : HttpResponse) : List Nat :=
  r.blocks.flatten

/-- The byte count the progress bar accumulates. -/
def respReceived (r : HttpResponse) : Nat :=
  (r.blocks.map List.length).sum

/-- Embedding of `deps.download`: transport failure raises; a declared
content length that differs from the received count raises; then the
digest of the whole content is compared with the expected checksum
(`calculated_checksum != checksum`, where the expected value may be
`None`) and a mismatch raises an error naming both; only equality
returns the bytes. -/
def download (sha256hex : List Nat → String) (url : String)
    (resp : Option HttpResponse) (checksum : Option String) :
    Except DownloadError (List Nat) :=
  match resp with
  | none => Except.error (DownloadError.transport url)
  | some r =>
    if !r.ok then Except.error (DownloadError.transport url)
    else if r.contentLength ≠ 0 ∧ respReceived r ≠ r.contentLength then
      Except.error (DownloadError.sizeMismatch url)
    else if some (sha256hex (respBytes r)) ≠ checksum then
      Except.error (DownloadError.checksumMismatch url checksum (sha256hex (respBytes r)))
    else
      Except.ok (respBytes r)

/-- Whether a `download` run handed bytes back to the caller. -/
def returnsBytes (x : Except DownloadError (List Nat)) : Bool :=
  match x with
  | Except.ok _ => true
  | Except.error _ => false

/-! ## convert.py : the ffmpeg runner

The progress loop reads the child's merged output line by line.  Each
line is split at every `=`; lines with fewer than two parts are skipped
entirely (no state change, no refresh); otherwise the first two parts
update the status dict, and an `out_time_us` part (with a value not
containing `N/A`) drives `progress.update(total_time - progress.n)`,
which sets the tqdm counter to `total_time` outright.  The trace records
the counter at every `progress.refresh()`: it is the sequence of
displayed progress values.  Exceptions the loop can raise (`KeyError`
from `status["out_time_us"]`, `ValueError` from `float(...)`) and the
probe's failure mode surface in an `Except`, because `ffmpeg` contains
no handler. -/

/-- The Python exceptions the runner can raise. -/
inductive PyError
  | keyError
  | valueError
  | jsonDecodeError
deriving DecidableEq

/-- What `ffprobe` yields when it succeeds: the first stream's rounded
duration (only used to scale the progress bar). -/
structure ProbeInfo where
  duration : Int
deriving DecidableEq

/-- The state of one task's progress display: the status dict, the tqdm
counter `n`, and the displayed values so far. -/
structure ConvState where
  status : List (List Char × List Char)
  n : Int
  trace : List Int
deriving DecidableEq

/-- The characters of the key `out_time_us`. -/
def outTimeKey : List Char :=
  ['o', 'u', 't', '_', 't', 'i', 'm', 'e', '_', 'u', 's']

/-- The characters of the placeholder `N/A`. -/
def naChars : List Char := ['N', '/', 'A']

/-- Python's substring test `pat in s`. -/
def containsSub (pat : List Char) : List Char → Bool
  | [] => pat.isEmpty
  | c :: t => pat.isPrefixOf (c :: t) || containsSub pat t

/-- Python `dict.update({k: v})` on an association list with unique
keys: replace the value of an existing key in place, otherwise append
the pair. -/
def dictUpdate : List (List Char × List Char) → List Char → List Char →
    List (List Char × List Char)
  | [], k, v => [(k, v)]
  | kv :: t, k, v => if kv.1 == k then (k, v) :: t else kv :: dictUpdate t k v

/-- Rounding of the exact rational `num / den` (`den` positive) to the
nearest integer, ties to even: the value of Python's
`round(float(num) / den)` whenever the float quotient is exact enough,
which holds for every `out_time_us` below 2^52. -/
def roundHalfEven (num den : Int) : Int :=
  let q := Int.fdiv num den
  let r := num - q * den
  if 2 * r < den then q
  else if den < 2 * r then q + 1
  else if q % 2 = 0 then q else q + 1

/-- Python `float(s)` restricted to the integral strings the progress
stream carries: optional surrounding whitespace (the kept newline), an
optional sign, then digits. -/
def pyParseIntStr (s : List Char) : Option Int :=
  match pyStrip [' ', '\t', '\n', '\r'] s with
  | '-' :: ds =>
    if ds ≠ [] ∧ ds.all Char.isDigit then
      some (-(ds.foldl (fun a c => 10 * a + (c.toNat - 48)) 0 : Nat))
    else none
  | ds =>
    if ds ≠ [] ∧ ds.all Char.isDigit then
      some ((ds.foldl (fun a c => 10 * a + (c.toNat - 48)) 0 : Nat))
    else none

/-- One iteration of the progress loop of `convert.ffmpeg` on one line
of child output. -/
def stepLine (s : ConvState) (line : List Char) : Except PyError ConvState :=
  if (splitChar '=' line).length < 2 then Except.ok s
  else if (splitChar '=' line).contains outTimeKey
      && !(containsSub naChars (((splitChar '=' line).tail).headD [])) then
    match (dictUpdate s.status ((splitChar '=' line).headD [])
        (((splitChar '=' line).tail).headD [])).lookup outTimeKey with
    | none => Except.error PyError.keyError
    | some ov =>
      match pyParseIntStr ov with
      | none => Except.error PyError.valueError
      | some us =>
        Except.ok
          { status := dictUpdate s.status ((splitChar '=' line).headD [])
              (((splitChar '=' line).tail).headD []),
            n := roundHalfEven us 1000000,
            trace := s.trace ++ [roundHalfEven us 1000000] }
  else
    Except.ok
      { status := dictUpdate s.status ((splitChar '=' line).headD [])
          (((splitChar '=' line).tail).headD []),
        n := s.n,
        trace := s.trace ++ [s.n] }

/-- The progress loop over the whole output stream. -/
def runLines : ConvState → List (List Char) → Except PyError ConvState
  | s, [] => Except.ok s
  | s, l :: ls =>
    match stepLine s l with
    | Except.error e => Except.error e
    | Except.ok s' => runLines s' ls

/-- The state a task starts with: empty dict, counter 0, nothing
displayed. -/
def initConvState : ConvState := ⟨[], 0, []⟩

/-- Embedding of `convert.ffmpeg`'s observable behaviour for one task:
the probe result (raising if the probe's JSON cannot be parsed), the
child's output lines, the child's exit code and the value `queue.get()`
dequeues at the end.  There is no handler anywhere in the function, so a
probe or loop error propagates; the child's exit code is never read; and
the value returned is the dequeued queue item. -/
def ffmpeg (probe : Except PyError ProbeInfo) (lines : List (List Char))
    (_exitCode : Int) (queueItem : Nat) : Except PyError Nat :=
  match probe with
  | Except.error e => Except.error e
  | Except.ok _info =>
    match runLines initConvState lines with
    | Except.error e => Except.error e
    | Except.ok _ => Except.ok queueItem

/-- The spec's notion of child success: a zero exit status. -/
def exitSuccess (code : Int) : Bool :=
  code == 0

/-- Python truthiness of the integer the runner actually returns. -/
def pyTruthy (n : Nat) : Bool :=
  n != 0

/-- A monotonically non-decreasing sequence of displayed values. -/
def nonDecr : List Int → Bool
  | [] => true
  | [_] => true
  | a :: b :: t => (a ≤ b) && nonDecr (b :: t)

/-! ## metronome.py : the dispatch loop and its Queue(threads) bound

The dispatch loop does `queue.put(index)` (blocking while the queue
holds `threads` items, for `threads ≥ 1`; a `Queue(0)` would be
unbounded) and then starts a worker thread; each worker spawns the
transcoder subprocess, waits for it, and only then calls
`queue.task_done(); return queue.get()`, removing one item.  Workers are
interchangeable, so the system is abstracted to counters of workers per
phase plus the queue occupancy, with one step per atomic event; any
interleaving of the dispatch loop and the workers is a path of this
relation.  A worker that raises before its `queue.get()` moves to
`crashed` and never frees its slot. -/

/-- Counters of one batch run: items in the queue and workers per
phase (`created`: thread started, subprocess not yet spawned;
`running`: subprocess executing; `exited`: subprocess finished, slot
not yet freed; `finished`: slot freed; `crashed`: raised before
freeing its slot). -/
structure Sched where
  queued : Nat
  created : Nat
  running : Nat
  exited : Nat
  finished : Nat
  crashed : Nat
deriving DecidableEq

/-- The events of the dispatch loop and the workers, as a step relation
parametrised by the queue capacity `N`.  `dispatch` is
`queue.put(index); thread.start()` and blocks unless the queue has room
(`Queue(0)` never blocks); `spawn` is the worker's `Popen`; `crashPrep`
is an exception before the subprocess spawns (e.g. the probe);  `exit`
is the subprocess terminating; `release` is `queue.get()` at the end of
the worker. -/
inductive SchedStep (N : Nat) : Sched → Sched → Prop
  | dispatch (s : Sched) (h : N = 0 ∨ s.queued < N) :
      SchedStep N s { s with queued := s.queued + 1, created := s.created + 1 }
  | spawn (s : Sched) (h : 0 < s.created) :
      SchedStep N s { s with created := s.created - 1, running := s.running + 1 }
  | crashPrep (s : Sched) (h : 0 < s.created) :
      SchedStep N s { s with created := s.created - 1, crashed := s.crashed + 1 }
  | exit (s : Sched) (h : 0 < s.running) :
      SchedStep N s { s with running := s.running - 1, exited := s.exited + 1 }
  | release (s : Sched) (h : 0 < s.exited) (hq : 0 < s.queued) :
      SchedStep N s
        { s with exited := s.exited - 1, queued := s.queued - 1,
                 finished := s.finished + 1 }

/-- The batch starts with nothing queued and no workers. -/
def initSched : Sched := ⟨0, 0, 0, 0, 0, 0⟩

/-- The states a batch run with capacity `N` can reach under any
interleaving. -/
def SchedReachable (N : Nat) (s : Sched) : Prop :=
  Relation.ReflTransGen (SchedStep N) initSched s

/-! ## Theorems -/

/-- Helper: membership phrasing of the `List.contains` call Python's
`in` test embeds to. -/
theorem contains_true_iff (l : List Char) (c : Char) :
    l.contains c = true ↔ c ∈ l := by
  simp [List.contains, List.elem_iff]

/-- Helper: a `dropWhile` returning the whole list exactly says the head
(when there is one) fails the predicate. -/
theorem dropWhile_eq_self_iff_head (p : Char → Bool) (l : List Char) :
    l.dropWhile p = l ↔ ∀ c, l.head? = some c → p c = false := by
  cases l with
  | nil => simp
  | cons c t =>
    constructor
    · intro h d hd
      rw [List.head?_cons, Option.some_inj] at hd
      subst hd
      by_contra hp
      rw [Bool.not_eq_false] at hp
      rw [List.dropWhile_cons_of_pos hp] at h
      have hlen := congrArg List.length h
      have hle := (List.dropWhile_sublist (l := t) p).length_le
      simp only [List.length_cons] at hlen
      omega
    · intro h
      have hc : p c = false := h c rfl
      simp [List.dropWhile_cons, hc]

/-- Helper: a `dropWhile` of full length drops nothing. -/
theorem dropWhile_eq_self_of_length (p : Char → Bool) (l : List Char)
    (h : (l.dropWhile p).length = l.length) : l.dropWhile p = l :=
  (List.dropWhile_sublist p).eq_of_length h

/-- Helper: `pyStrip` is the identity exactly when neither the first nor
the last character is in the stripped set; this mirrors what
`filename.strip(" .") != filename` tests. -/
theorem pyStrip_eq_self_iff (cs l : List Char) :
    pyStrip cs l = l ↔
      ((∀ c, l.head? = some c → cs.contains c = false) ∧
       (∀ c, l.getLast? = some c → cs.contains c = false)) := by
  unfold pyStrip
  constructor
  · intro h
    have hlen := congrArg List.length h
    simp only [List.length_reverse] at hlen
    have h2le :=
      (List.dropWhile_sublist (l := (l.dropWhile (fun c => cs.contains c)).reverse)
        (fun c => cs.contains c)).length_le
    simp only [List.length_reverse] at h2le
    have h1le := (List.dropWhile_sublist (l := l) (fun c => cs.contains c)).length_le
    have h1len : ((l.dropWhile (fun c => cs.contains c)).length) = l.length := by omega
    have h1 : l.dropWhile (fun c => cs.contains c) = l :=
      dropWhile_eq_self_of_length _ _ h1len
    rw [h1] at h
    have h2 : l.reverse.dropWhile (fun c => cs.contains c) = l.reverse := by
      apply dropWhile_eq_self_of_length
      have := congrArg List.length h
      simp only [List.length_reverse] at this ⊢
      exact this
    constructor
    · exact (dropWhile_eq_self_iff_head _ _).mp h1
    · intro c hc
      have := (dropWhile_eq_self_iff_head _ _).mp h2 c
      rw [List.head?_reverse] at this
      exact this hc
  · rintro ⟨hhd, hlast⟩
    have h1 : l.dropWhile (fun c => cs.contains c) = l :=
      (dropWhile_eq_self_iff_head _ _).mpr hhd
    rw [h1]
    have h2 : l.reverse.dropWhile (fun c => cs.contains c) = l.reverse := by
      apply (dropWhile_eq_self_iff_head _ _).mpr
      intro c hc
      rw [List.head?_reverse] at hc
      exact hlast c hc
    rw [h2, List.reverse_reverse]

/-- C7 (counterexample): the filename `a` followed by DEL (0x7F).  DEL
is an ASCII control character, so the claim as written requires
`is_safe_filename` to return false, yet the source tests only
`ord(char) < 32` and accepts the name. -/
theorem c7_counterexample :
    is_safe_filename ['a', Char.ofNat 127] = true ∧
    asciiControl (Char.ofNat 127) = true ∧
    Char.ofNat 127 ∈ ['a', Char.ofNat 127] := by
  decide

/-- C7 (amended): `is_safe_filename` returns false exactly for strings
holding a character of the forbidden set, a character with code point
below 32 (the C0 controls — not DEL, which the original claim's "any
ASCII control character" would also cover), a leading or trailing space
or dot, or the empty string; every other string is accepted. -/
theorem c7_is_safe_filename_iff (f : List Char) :
    is_safe_filename f = false ↔ badFilenameSpec f := by
  have hstrip : ∀ c : Char, stripSet.contains c = true ↔ (c = ' ' ∨ c = '.') := by
    intro c
    rw [contains_true_iff]
    simp [stripSet]
  unfold is_safe_filename badFilenameSpec
  split_ifs with h1 h2 h3 h4
  · refine iff_of_true rfl ?_
    left
    obtain ⟨c, hc, hf⟩ := List.any_eq_true.mp h1
    exact ⟨c, (contains_true_iff f c).mp hf, hc⟩
  · refine iff_of_true rfl ?_
    right; left
    obtain ⟨c, hc, hf⟩ := List.any_eq_true.mp h2
    exact ⟨c, hc, of_decide_eq_true hf⟩
  · refine iff_of_true rfl ?_
    right; right; left
    rw [Ne, pyStrip_eq_self_iff, not_and_or] at h3
    rcases h3 with h3 | h3
    · push_neg at h3
      obtain ⟨c, hc, hmem⟩ := h3
      simp only [ne_eq, Bool.not_eq_false] at hmem
      rcases (hstrip c).mp hmem with h | h
      · left; rw [hc, h]
      · right; left; rw [hc, h]
    · push_neg at h3
      obtain ⟨c, hc, hmem⟩ := h3
      simp only [ne_eq, Bool.not_eq_false] at hmem
      rcases (hstrip c).mp hmem with h | h
      · right; right; left; rw [hc, h]
      · right; right; right; rw [hc, h]
  · exact iff_of_true rfl (Or.inr (Or.inr (Or.inr h4)))
  · refine iff_of_false (by simp) ?_
    intro habs
    rcases habs with ⟨c, hc, hmem⟩ | ⟨c, hc, hlt⟩ | hse | hnil
    · exact h1 (List.any_eq_true.mpr ⟨c, hmem, (contains_true_iff f c).mpr hc⟩)
    · exact h2 (List.any_eq_true.mpr ⟨c, hc, decide_eq_true hlt⟩)
    · rw [not_not] at h3
      have hself := (pyStrip_eq_self_iff stripSet f).mp h3
      rcases hse with hh | hh | hh | hh
      · have := hself.1 ' ' hh
        rw [(hstrip ' ').symm.mp (Or.inl rfl)] at this
        cases this
      · have := hself.1 '.' hh
        rw [(hstrip '.').symm.mp (Or.inr rfl)] at this
        cases this
      · have := hself.2 ' ' hh
        rw [(hstrip ' ').symm.mp (Or.inl rfl)] at this
        cases this
      · have := hself.2 '.' hh
        rw [(hstrip '.').symm.mp (Or.inr rfl)] at this
        cases this
    · exact h4 hnil

/-- Helper: the resolve fold moves over clean components untouched. -/
theorem resolveFold_clean (l : List String) (acc : List String) (h : cleanParts l) :
    List.foldl
      (fun acc c =>
        if c = ".." then acc.dropLast
        else if c = "." then acc
        else if c = "" then acc
        else acc ++ [c])
      acc l = acc ++ l := by
  induction l generalizing acc with
  | nil => simp
  | cons c t ih =>
    obtain ⟨hne, hnd, hndd⟩ := h c (List.mem_cons_self c t)
    have ht : cleanParts t := fun x hx => h x (List.mem_cons_of_mem c hx)
    simp only [List.foldl_cons, if_neg hndd, if_neg hnd, if_neg hne]
    rw [ih (acc ++ [c]) ht]
    simp

/-- Helper: resolving an already clean absolute path changes nothing. -/
theorem resolveParts_eq_self (l : List String) (h : cleanParts l) :
    resolveParts l = l := by
  unfold resolveParts
  rw [resolveFold_clean l [] h, List.nil_append]

/-- Helper: resolving a clean base joined with one extra component. -/
theorem resolveParts_append_one (base : List String) (n : String) (hb : cleanParts base) :
    resolveParts (base ++ [n]) =
      if n = ".." then base.dropLast
      else if n = "." then base
      else if n = "" then base
      else base ++ [n] := by
  unfold resolveParts
  rw [List.foldl_append, resolveFold_clean base [] hb, List.nil_append, List.foldl_cons,
    List.foldl_nil]

/-- Helper: rendering a path with one more component appends a separator
and that component's characters. -/
theorem renderAbs_concat (l : List String) (a : String) (h : l ≠ []) :
    renderAbs (l ++ [a]) = renderAbs l ++ '/' :: a.data := by
  unfold renderAbs
  rw [if_neg (by simp), if_neg h, List.foldl_append, List.foldl_cons, List.foldl_nil]

/-- Helper: the length of the rendering fold. -/
theorem renderFold_length (l : List String) (acc : List Char) :
    (l.foldl (fun acc c => acc ++ '/' :: c.data) acc).length =
      acc.length + (l.map (fun c => c.data.length + 1)).sum := by
  induction l generalizing acc with
  | nil => simp
  | cons c t ih =>
    rw [List.foldl_cons, ih]
    simp
    omega

/-- Helper: dropping the last component never lengthens the rendered
path. -/
theorem renderAbs_dropLast_length_le (l : List String) :
    (renderAbs l.dropLast).length ≤ (renderAbs l).length := by
  rcases List.eq_nil_or_concat' l with hl | ⟨l', a, rfl⟩
  · rw [hl]
    simp
  · rw [List.dropLast_concat]
    rcases List.eq_nil_or_concat' l' with hl' | ⟨l'', b, rfl⟩
    · subst hl'
      unfold renderAbs
      simp only [if_pos rfl, List.nil_append, if_neg (by simp : ¬([a] : List String) = [])]
      rw [renderFold_length]
      simp
    · rw [renderAbs_concat _ a (by simp)]
      simp

/-- Helper: a passed `startswith` bounds the lengths. -/
theorem pyStartswith_length (s pre : List Char) (h : pyStartswith s pre = true) :
    pre.length ≤ s.length := by
  unfold pyStartswith at h
  exact (List.isPrefixOf_iff_prefix.mp h).length_le

/-- Helper: what a successful `safe_extract_path` guard guarantees: the
returned path starts inside the destination and is the destination plus
exactly the member's final name component. -/
theorem safe_extract_path_ok (base : List String) (p : EntryPath) (tgt : List String)
    (hb : cleanParts base) (h : safe_extract_path base p = Except.ok tgt) :
    pyStartswith (renderAbs tgt) (renderAbs base ++ ['/']) = true ∧
    ∃ n, n ≠ "" ∧ n ≠ ".." ∧ tgt = base ++ [n] := by
  have hres : resolveParts base = base := resolveParts_eq_self base hb
  unfold safe_extract_path at h
  by_cases hnm : pathName p = ""
  · rw [if_pos hnm] at h
    rw [List.append_nil, hres] at h
    split at h
    next hg =>
      have := pyStartswith_length _ _ hg
      simp at this
    next hg => exact absurd h (by simp)
  · rw [if_neg hnm] at h
    rw [resolveParts_append_one base _ hb, hres] at h
    by_cases hdd : pathName p = ".."
    · rw [if_pos hdd] at h
      split at h
      next hg =>
        have hlen := pyStartswith_length _ _ hg
        have hdl := renderAbs_dropLast_length_le base
        simp at hlen
        omega
      next hg => exact absurd h (by simp)
    · rw [if_neg hdd] at h
      by_cases hdot : pathName p = "."
      · rw [if_pos hdot] at h
        split at h
        next hg =>
          have := pyStartswith_length _ _ hg
          simp at this
        next hg => exact absurd h (by simp)
      · rw [if_neg hdot, if_neg hnm] at h
        split at h
        next hg =>
          rw [Except.ok.injEq] at h
          subst h
          exact ⟨hg, pathName p, hnm, hdd, rfl⟩
        next hg => exact absurd h (by simp)

/-- Helper: every write the tar branch performs, beyond those already
accumulated, lies inside the destination. -/
theorem tarExtract_writes_inside (base needles : List String) (hb : cleanParts base) :
    ∀ (es : List TarEntry) (ws : List FileWrite),
      (∀ w ∈ ws, writeInside base w) →
      ∀ w ∈ (tarExtract base needles es ws).writes, writeInside base w := by
  intro es
  induction es with
  | nil => intro ws hws w hw; exact hws w hw
  | cons e rest ih =>
    intro ws hws w hw
    by_cases hsuf : !tarSuffixOk e.path
    · simp only [tarExtract, hsuf, if_true] at hw
      exact ih ws hws w hw
    · by_cases hstem : stemWanted needles e.path
      · rcases hsep : safe_extract_path base e.path with m | tgt
        · simp [tarExtract, hsuf, hstem, hsep] at hw
          exact hws w hw
        · have hok := safe_extract_path_ok base e.path tgt hb hsep
          have hext : ∀ (bs : List Nat), ∀ x ∈ ws ++ [(⟨tgt, bs⟩ : FileWrite)],
              writeInside base x := by
            intro bs x hx
            rcases List.mem_append.mp hx with hin | hone
            · exact hws x hin
            · rw [List.mem_singleton] at hone
              subst hone
              exact hok
          rcases hcont : e.content with _ | bs
          · simp [tarExtract, hsuf, hstem, hsep, hcont] at hw
            exact ih _ (hext []) w hw
          · simp [tarExtract, hsuf, hstem, hsep, hcont] at hw
            exact ih _ (hext bs) w hw
      · simp [tarExtract, hsuf, hstem] at hw
        exact ih ws hws w hw

/-- Helper: every write the zip branch performs, beyond those already
accumulated, lies inside the destination. -/
theorem zipExtract_writes_inside (base needles : List String) (hb : cleanParts base) :
    ∀ (es : List ZipEntry) (ws : List FileWrite),
      (∀ w ∈ ws, writeInside base w) →
      ∀ w ∈ (zipExtract base needles es ws).writes, writeInside base w := by
  intro es
  induction es with
  | nil => intro ws hws w hw; exact hws w hw
  | cons e rest ih =>
    intro ws hws w hw
    by_cases hcond : stemWanted needles e.path && zipSuffixOk e.path
    · rcases hsep : safe_extract_path base e.path with m | tgt
      · simp only [zipExtract, hcond, hsep, if_true] at hw
        exact hws w hw
      · simp only [zipExtract, hcond, hsep, if_true] at hw
        have hok := safe_extract_path_ok base e.path tgt hb hsep
        refine ih _ ?_ w hw
        intro x hx
        rcases List.mem_append.mp hx with hin | hone
        · exact hws x hin
        · rw [List.mem_singleton] at hone
          subst hone
          exact hok
    · simp [zipExtract, hcond] at hw
      exact ih ws hws w hw

/-- C1 (amended): `extract` never writes a file outside the destination
directory.  Because the guard joins only the member's final name
component to the destination, every file it writes is
`destination/<final name component>` with an honest component, hence
strictly inside the destination — but an entry such as
`../../etc/ffmpeg`, whose own resolved path escapes, is written inside
the destination rather than aborting the extraction. -/
theorem c1_extract_writes_stay_inside (d : ArchiveData) (base needles : List String)
    (hb : cleanParts base) :
    ∀ w ∈ (extract d base needles).writes, writeInside base w := by
  cases d with
  | tarball es =>
    exact tarExtract_writes_inside base needles hb es [] (by intro w hw; cases hw)
  | zipfile es =>
    exact zipExtract_writes_inside base needles hb es [] (by intro w hw; cases hw)
  | unknown => intro w hw; cases hw

/-- C1 (counterexample): a tar archive holding the traversal entry
`../../etc/ffmpeg` (stem `ffmpeg`, wanted).  Its resolved extraction
path `/etc/ffmpeg` lies outside the destination `/x/bin`, yet `extract`
raises no path-traversal error: it completes normally and writes the
entry's bytes inside the destination, at `/x/bin/ffmpeg` — the claim's
required abort does not happen. -/
theorem c1_counterexample :
    extract (ArchiveData.tarball [⟨⟨false, ["..", "..", "etc", "ffmpeg"]⟩, some [1, 2, 3]⟩])
        ["x", "bin"] ["ffmpeg"]
      = ⟨[⟨["x", "bin", "ffmpeg"], [1, 2, 3]⟩], ExtractOutcome.completed true⟩ ∧
    resolveParts (["x", "bin"] ++ ["..", "..", "etc", "ffmpeg"]) = ["etc", "ffmpeg"] ∧
    pyStartswith (renderAbs ["etc", "ffmpeg"]) (renderAbs ["x", "bin"] ++ ['/']) = false := by
  decide

/-- C1 (witness): the amended theorem applied to the concrete archive of
the counterexample: its one write lies inside the destination. -/
theorem c1_witness :
    writeInside ["x", "bin"] ⟨["x", "bin", "ffmpeg"], [1, 2, 3]⟩ :=
  c1_extract_writes_stay_inside
    (ArchiveData.tarball [⟨⟨false, ["..", "..", "etc", "ffmpeg"]⟩, some [1, 2, 3]⟩])
    ["x", "bin"] ["ffmpeg"] (by decide)
    ⟨["x", "bin", "ffmpeg"], [1, 2, 3]⟩ (by decide)

/-- C8: the tar branch never extracts `ffmpeg.exe` although its stem is
wanted, because the source compares the joined suffixes `".exe"` against
the dot-less list `["", "exe"]`; the zip branch, comparing the suffix
against `["", ".exe"]`, does extract it.  The failing input is a tar
archive holding the single member `ffmpeg.exe` with wanted stem
`ffmpeg`: nothing is written. -/
theorem c8_tar_branch_skips_exe :
    extract (ArchiveData.tarball [⟨⟨false, ["ffmpeg.exe"]⟩, some [7]⟩]) ["x", "bin"] ["ffmpeg"]
      = ⟨[], ExtractOutcome.completed true⟩ ∧
    extract (ArchiveData.zipfile [⟨⟨false, ["ffmpeg.exe"]⟩, [7]⟩]) ["x", "bin"] ["ffmpeg"]
      = ⟨[⟨["x", "bin", "ffmpeg.exe"], [7]⟩], ExtractOutcome.completed true⟩ ∧
    pathSuffixesJoined ⟨false, ["ffmpeg.exe"]⟩ = ['.', 'e', 'x', 'e'] ∧
    pathStemChars ⟨false, ["ffmpeg.exe"]⟩ = ['f', 'f', 'm', 'p', 'e', 'g'] := by
  decide

/-- C2: the checksum control of `download`.  Whenever the digest of the
received bytes differs from the expected checksum, the run ends in the
checksum-mismatch error naming both the expected and the computed value;
and any bytes `download` does return have a digest equal to the expected
checksum, so mismatching bytes are never handed to the caller. -/
theorem c2_checksum_enforced (sha256hex : List Nat → String) (url : String) (cs : String) :
    (∀ (resp : Option HttpResponse) (out : List Nat),
        download sha256hex url resp (some cs) = Except.ok out → sha256hex out = cs) ∧
    (∀ r : HttpResponse, r.ok = true →
        (r.contentLength = 0 ∨ respReceived r = r.contentLength) →
        sha256hex (respBytes r) ≠ cs →
        download sha256hex url (some r) (some cs) =
          Except.error (DownloadError.checksumMismatch url (some cs) (sha256hex (respBytes r)))) := by
  constructor
  · intro resp out h
    match resp with
    | none => exact absurd h (by simp [download])
    | some r =>
      simp only [download] at h
      by_cases hok : (!r.ok) = true
      · rw [if_pos hok] at h
        exact absurd h (by simp)
      · rw [if_neg hok] at h
        by_cases hsz : r.contentLength ≠ 0 ∧ respReceived r ≠ r.contentLength
        · rw [if_pos hsz] at h
          exact absurd h (by simp)
        · rw [if_neg hsz] at h
          by_cases hne : some (sha256hex (respBytes r)) ≠ some cs
          · rw [if_pos hne] at h
            exact absurd h (by simp)
          · rw [if_neg hne] at h
            rw [not_not] at hne
            rw [Except.ok.injEq] at h
            subst h
            exact Option.some_inj.mp hne
  · intro r hok hsize hne
    have hsz : ¬(r.contentLength ≠ 0 ∧ respReceived r ≠ r.contentLength) := by
      rcases hsize with h | h <;> simp [h]
    simp only [download]
    rw [if_neg (by simp [hok])]
    rw [if_neg hsz]
    rw [if_pos (by simpa using hne)]

/-- C2 (witness): a response delivering the block `[9]` under a hash
that computes `"aa"` against the expected checksum `"bb"` ends in the
checksum-mismatch error naming both digests. -/
theorem c2_witness :
    download (fun _ => "aa") "u" (some ⟨true, 0, [[9]]⟩) (some "bb") =
      Except.error (DownloadError.checksumMismatch "u" (some "bb") "aa") :=
  (c2_checksum_enforced (fun _ => "aa") "u" "bb").2 ⟨true, 0, [[9]]⟩ rfl (Or.inl rfl)
    (by decide)

/-- C10: calling `download` without a checksum (the parameter defaults
to `None`) never returns the bytes: the computed hexadecimal digest, a
string, can never equal `None`, so after any successful transfer the run
still ends in the checksum-mismatch error. -/
theorem c10_missing_checksum_never_returns (sha256hex : List Nat → String) (url : String) :
    (∀ resp : Option HttpResponse,
        returnsBytes (download sha256hex url resp none) = false) ∧
    (∀ r : HttpResponse, r.ok = true →
        (r.contentLength = 0 ∨ respReceived r = r.contentLength) →
        download sha256hex url (some r) none =
          Except.error (DownloadError.checksumMismatch url none (sha256hex (respBytes r)))) := by
  constructor
  · intro resp
    match resp with
    | none => rfl
    | some r =>
      simp only [download]
      by_cases hok : (!r.ok) = true
      · rw [if_pos hok]
        rfl
      · rw [if_neg hok]
        by_cases hsz : r.contentLength ≠ 0 ∧ respReceived r ≠ r.contentLength
        · rw [if_pos hsz]
          rfl
        · rw [if_neg hsz]
          rw [if_pos (by simp)]
          rfl
  · intro r hok hsize
    have hsz : ¬(r.contentLength ≠ 0 ∧ respReceived r ≠ r.contentLength) := by
      rcases hsize with h | h <;> simp [h]
    simp only [download]
    rw [if_neg (by simp [hok])]
    rw [if_neg hsz]
    rw [if_pos (by simp)]

/-- C10 (witness): a fully successful transfer of the block `[9]` with
no checksum supplied ends in the checksum-mismatch error rather than
returning the bytes. -/
theorem c10_witness :
    download (fun _ => "aa") "u" (some ⟨true, 1, [[9]]⟩) none =
      Except.error (DownloadError.checksumMismatch "u" none "aa") :=
  (c10_missing_checksum_never_returns (fun _ => "aa") "u").2 ⟨true, 1, [[9]]⟩ rfl
    (Or.inr rfl)

/-- Helper: a split never yields an empty list of parts. -/
theorem splitChar_ne_nil (sep : Char) (l : List Char) : splitChar sep l ≠ [] := by
  cases l with
  | nil => simp [splitChar]
  | cons c t =>
    rcases h : splitChar sep t with _ | ⟨p, ps⟩
    · simp [splitChar, h]
    · by_cases hc : c = sep <;> simp [splitChar, h, hc]

/-- Helper: a line splits into at least two parts exactly when it holds
the separator. -/
theorem two_le_splitChar_length_iff (sep : Char) (l : List Char) :
    2 ≤ (splitChar sep l).length ↔ sep ∈ l := by
  induction l with
  | nil => simp [splitChar]
  | cons c t ih =>
    rcases h : splitChar sep t with _ | ⟨p, ps⟩
    · exact absurd h (splitChar_ne_nil sep t)
    · rw [h] at ih
      by_cases hc : c = sep
      · subst hc
        simp [splitChar, h]
      · simp only [splitChar, h, if_neg hc, List.length_cons, List.mem_cons]
        simp only [List.length_cons] at ih
        constructor
        · intro hlen
          exact Or.inr (ih.mp hlen)
        · intro hmem
          rcases hmem with heq | hmem
          · exact absurd heq.symm hc
          · exact ih.mpr hmem

/-- Helper: looking up the key just written by `dictUpdate` yields the
written value. -/
theorem dictUpdate_lookup (d : List (List Char × List Char)) (k v : List Char) :
    (dictUpdate d k v).lookup k = some v := by
  induction d with
  | nil => simp [dictUpdate, List.lookup]
  | cons kv t ih =>
    by_cases hk : (kv.1 == k) = true
    · simp [dictUpdate, hk, List.lookup]
    · simp only [dictUpdate, hk, Bool.false_eq_true, if_false]
      have hk2 : (k == kv.1) = false := by
        rw [Bool.not_eq_true] at hk
        rw [beq_eq_false_iff_ne] at hk ⊢
        exact fun hkk => hk hkk.symm
      simp [List.lookup, hk2, ih]

/-- C4 (evaluation at the failing input): the per-file runner's result
is the dequeued queue item, not a function of the child's exit status.
With exit status 1 and queue item 1 the runner returns 1, which is
truthy, although the child did not exit zero — so the returned value is
not `true iff the child exited with status zero`.  (The source never
reads `process.returncode`; its final statement is
`return queue.get()`.) -/
theorem c4_return_ignores_exit_status :
    ffmpeg (Except.ok ⟨180⟩) [] 1 1 = Except.ok 1 ∧
    exitSuccess 1 = false ∧
    pyTruthy 1 = true := by
  decide

/-- C5 (amended): the per-task runner contains no exception handler: a
probe failure propagates out of `ffmpeg` unchanged, and so does any
error raised inside the progress loop; no `Failed` outcome exists in the
function.  (The thread library, outside the runner, is what keeps the
main loop alive.) -/
theorem c5_exceptions_propagate :
    (∀ (e : PyError) (lines : List (List Char)) (code : Int) (q : Nat),
        ffmpeg (Except.error e) lines code q = Except.error e) ∧
    (∀ (info : ProbeInfo) (lines : List (List Char)) (code : Int) (q : Nat) (e : PyError),
        runLines initConvState lines = Except.error e →
        ffmpeg (Except.ok info) lines code q = Except.error e) := by
  constructor
  · intro e lines code q
    rfl
  · intro info lines code q e h
    unfold ffmpeg
    rw [h]

/-- C5 (witness): the line `x=out_time_us` makes the loop raise
`KeyError` (the value, not the key, matches the membership test, and the
dict holds no `out_time_us`), and that error leaves the runner. -/
theorem c5_witness :
    ffmpeg (Except.ok ⟨180⟩) [['x', '=', 'o', 'u', 't', '_', 't', 'i', 'm', 'e', '_', 'u', 's']]
        0 1 = Except.error PyError.keyError :=
  c5_exceptions_propagate.2 ⟨180⟩
    [['x', '=', 'o', 'u', 't', '_', 't', 'i', 'm', 'e', '_', 'u', 's']] 0 1
    PyError.keyError (by decide)

/-- C5 (counterexample): a metadata-probe failure is not caught at the
task boundary and not converted to any Failed outcome: `ffmpeg`
propagates it to its caller. -/
theorem c5_counterexample :
    ffmpeg (Except.error PyError.jsonDecodeError) [] 0 1
      = Except.error PyError.jsonDecodeError := by
  rfl

/-- C6 (amended): after a well-formed `out_time_us` line the displayed
progress value is exactly the rounded second count of that line's
reported timestamp — the counter is set to it outright
(`progress.update(total_time - progress.n)`), with no maximum taken
against the previous value, whatever the previous state was. -/
theorem c6_progress_tracks_latest (s : ConvState) (line v : List Char) (us : Int)
    (hsplit : splitChar '=' line = [outTimeKey, v])
    (hna : containsSub naChars v = false)
    (hparse : pyParseIntStr v = some us) :
    stepLine s line = Except.ok
      { status := dictUpdate s.status outTimeKey v,
        n := roundHalfEven us 1000000,
        trace := s.trace ++ [roundHalfEven us 1000000] } := by
  unfold stepLine
  rw [hsplit]
  rw [if_neg (by simp)]
  rw [if_pos (by simp [hna])]
  simp only [List.headD_cons, List.tail_cons, dictUpdate_lookup, hparse]

/-- C6 (witness): a single `out_time_us=2000000` line sets the display
to 2 seconds. -/
theorem c6_witness :
    stepLine initConvState (outTimeKey ++ '=' :: ['2', '0', '0', '0', '0', '0', '0'])
      = Except.ok ⟨[(outTimeKey, ['2', '0', '0', '0', '0', '0', '0'])], 2, [2]⟩ := by
  have h := c6_progress_tracks_latest initConvState
    (outTimeKey ++ '=' :: ['2', '0', '0', '0', '0', '0', '0'])
    ['2', '0', '0', '0', '0', '0', '0'] 2000000 (by decide) (by decide) (by decide)
  exact h.trans (by decide)

/-- C6 (counterexample): when the subprocess reports `out_time_us`
values out of order (2000000 then 1000000), the displayed sequence is
`[2, 1]`, which decreases — the displayed progress of a single task is
not monotonically non-decreasing. -/
theorem c6_counterexample :
    runLines initConvState
        [outTimeKey ++ '=' :: ['2', '0', '0', '0', '0', '0', '0'],
         outTimeKey ++ '=' :: ['1', '0', '0', '0', '0', '0', '0']]
      = Except.ok ⟨[(outTimeKey, ['1', '0', '0', '0', '0', '0', '0'])], 1, [2, 1]⟩ ∧
    nonDecr [2, 1] = false := by
  decide

/-- C9 (amended): the loop splits each line at every `=` (not only the
first): a line yields at least two parts exactly when it holds a `=`; a
line with fewer than two parts is ignored entirely (no state change, no
error); and every line with two or more parts — not only exactly two —
updates the status map, with the first part as key and the second part
as value (the remainder of the line is discarded). -/
theorem c9_split_and_update (s : ConvState) (line : List Char) :
    (2 ≤ (splitChar '=' line).length ↔ '=' ∈ line) ∧
    ((splitChar '=' line).length < 2 → stepLine s line = Except.ok s) ∧
    (∀ s', stepLine s line = Except.ok s' →
        s'.status =
          if 2 ≤ (splitChar '=' line).length then
            dictUpdate s.status ((splitChar '=' line).headD [])
              (((splitChar '=' line).tail).headD [])
          else s.status) := by
  refine ⟨two_le_splitChar_length_iff '=' line, ?_, ?_⟩
  · intro hlen
    unfold stepLine
    rw [if_pos hlen]
  · intro s' h
    unfold stepLine at h
    by_cases hlen : (splitChar '=' line).length < 2
    · rw [if_pos hlen] at h
      rw [Except.ok.injEq] at h
      subst h
      rw [if_neg (by omega)]
    · rw [if_neg hlen] at h
      rw [if_pos (by omega)]
      split at h
      next hcond =>
        split at h
        next => exact absurd h (by simp)
        next ov hlk =>
          split at h
          next => exact absurd h (by simp)
          next us hp =>
            rw [Except.ok.injEq] at h
            subst h
            rfl
      next hcond =>
        rw [Except.ok.injEq] at h
        subst h
        rfl

/-- C9 (witness): a line with no `=` at all leaves the state
untouched. -/
theorem c9_witness :
    stepLine initConvState ['a', 'b', 'c'] = Except.ok initConvState :=
  (c9_split_and_update initConvState ['a', 'b', 'c']).2.1 (by decide)

/-- C9 (counterexample): the line `a=b=c` splits into three parts — not
exactly two — yet it is not ignored: the status map gains the pair
`(a, b)`, refuting the claim that only lines yielding exactly two parts
update the state. -/
theorem c9_counterexample :
    (splitChar '=' ['a', '=', 'b', '=', 'c']).length = 3 ∧
    stepLine initConvState ['a', '=', 'b', '=', 'c']
      = Except.ok ⟨[(['a'], ['b'])], 0, [0]⟩ ∧
    (⟨[(['a'], ['b'])], 0, [0]⟩ : ConvState) ≠ initConvState := by
  decide

/-- Helper: the inductive invariant of the dispatch loop: every worker
that has not yet freed its slot (and none ever does before its
subprocess exits) is matched by an item still in the queue, and for a
positive capacity the queue never holds more than `N` items. -/
theorem sched_invariant (N : Nat) (hN : 1 ≤ N) (s : Sched)
    (hr : SchedReachable N s) :
    s.created + s.running + s.exited + s.crashed = s.queued ∧ s.queued ≤ N := by
  induction hr with
  | refl => exact ⟨rfl, Nat.zero_le N⟩
  | tail _hsteps hstep ih =>
    cases hstep with
    | dispatch h => rcases h with h | h <;> dsimp only <;> omega
    | spawn h => dsimp only; omega
    | crashPrep h => dsimp only; omega
    | exit h => dsimp only; omega
    | release h hq => dsimp only; omega

/-- C3: under any interleaving of the dispatch loop and the workers, the
number of concurrently executing transcoder subprocesses never exceeds
the configured capacity `N` (`threads`, at least 1): every running
subprocess belongs to a worker whose queue item has not been removed
yet, and `queue.put` blocks once `N` items are in. -/
theorem c3_bounded_concurrency (N : Nat) (s : Sched) (hN : 1 ≤ N)
    (hr : SchedReachable N s) : s.running ≤ N := by
  have h := sched_invariant N hN s hr
  omega

/-- C3 (witness): with capacity 1, the reachable state after one
dispatch and one subprocess spawn has one running transcoder, within the
bound. -/
theorem c3_witness :
    SchedReachable 1 ⟨1, 0, 1, 0, 0, 0⟩ ∧ (⟨1, 0, 1, 0, 0, 0⟩ : Sched).running ≤ 1 := by
  have h1 : SchedStep 1 initSched ⟨1, 1, 0, 0, 0, 0⟩ :=
    SchedStep.dispatch initSched (Or.inr (by decide))
  have h2 : SchedStep 1 ⟨1, 1, 0, 0, 0, 0⟩ ⟨1, 0, 1, 0, 0, 0⟩ :=
    SchedStep.spawn ⟨1, 1, 0, 0, 0, 0⟩ (by decide)
  have hr : SchedReachable 1 ⟨1, 0, 1, 0, 0, 0⟩ :=
    Relation.ReflTransGen.tail (Relation.ReflTransGen.tail Relation.ReflTransGen.refl h1) h2
  exact ⟨hr, c3_bounded_concurrency 1 ⟨1, 0, 1, 0, 0, 0⟩ (by decide) hr⟩

end Metronome
